import Mathlib

/-!
Verification development for the `oura_prometheus` header-only metrics
library (`oura_prometheus.hpp`).  The C++ data structures are shallowly
embedded: `double` becomes `ℚ`, `std::set` and `std::map` become sorted
lists built by an ordered-insert function, exceptions become `Except`
results paired with the (unchanged) receiver state, and `shared_ptr`
identity is modelled by a fresh numeric id attached to each metric
created by a family.
-/

/-- Comparison of two characters, as C++ compares the characters of a
`std::string` (by code point). -/
def charLt (a b : Char) : Bool := decide (a.toNat < b.toNat)

/-- Lexicographic comparison of two character sequences: the model of
`std::string::operator<`. -/
def charListLt : List Char → List Char → Bool
  | _, [] => false
  | [], _ :: _ => true
  | a :: as, b :: bs =>
      if charLt a b then true else if charLt b a then false else charListLt as bs

/-- `std::string` comparison used as key order by `std::set` and `std::map`. -/
def strLt (a b : String) : Bool := charListLt a.data b.data

theorem bfalse {b : Bool} (h : ¬ b = true) : b = false := by simpa using h

theorem charLt_trans {a b c : Char} (h1 : charLt a b = true) (h2 : charLt b c = true) :
    charLt a c = true := by
  simp only [charLt, decide_eq_true_eq] at h1 h2 ⊢
  exact Nat.lt_trans h1 h2

theorem charLt_asymm_eq {a b : Char} (h1 : charLt a b = false) (h2 : charLt b a = false) :
    a = b := by
  simp only [charLt, decide_eq_false_iff_not, Nat.not_lt] at h1 h2
  exact Char.eq_of_val_eq (UInt32.ext (Nat.le_antisymm h2 h1))

theorem charListLt_trans :
    ∀ {as bs cs : List Char}, charListLt as bs = true → charListLt bs cs = true →
      charListLt as cs = true
  | _, _, [] => by intro _ h2; simp [charListLt] at h2
  | _, [], _ :: _ => by intro h1 _; simp [charListLt] at h1
  | [], _ :: _, _ :: _ => by intro _ _; simp [charListLt]
  | a :: as, b :: bs, c :: cs => by
      intro h1 h2
      simp only [charListLt] at h1 h2 ⊢
      by_cases hab : charLt a b = true <;> by_cases hbc : charLt b c = true <;>
        simp only [hab, hbc, if_true, if_false] at h1 h2
      · simp [charLt_trans hab hbc]
      · by_cases hcb : charLt c b = true
        · simp [hcb] at h2
        · have : b = c := charLt_asymm_eq (bfalse hbc) (bfalse hcb)
          subst this
          simp [hab]
      · by_cases hba : charLt b a = true
        · simp [hba] at h1
        · have : a = b := charLt_asymm_eq (bfalse hab) (bfalse hba)
          subst this
          simp [hbc]
      · by_cases hba : charLt b a = true
        · simp [hba] at h1
        · have hab' : a = b := charLt_asymm_eq (bfalse hab) (bfalse hba)
          subst hab'
          by_cases hcb : charLt c a = true
          · simp [hcb] at h2
          · have hbc' : a = c := charLt_asymm_eq (bfalse hbc) (bfalse hcb)
            subst hbc'
            simp only [if_neg hab] at h1 h2 ⊢
            exact charListLt_trans h1 h2

theorem charListLt_asymm_eq :
    ∀ {as bs : List Char}, charListLt as bs = false → charListLt bs as = false → as = bs
  | [], [] => by intro _ _; rfl
  | [], _ :: _ => by intro h1 _; simp [charListLt] at h1
  | _ :: _, [] => by intro _ h2; simp [charListLt] at h2
  | a :: as, b :: bs => by
      intro h1 h2
      simp only [charListLt] at h1 h2
      by_cases hab : charLt a b = true
      · simp [hab] at h1
      · by_cases hba : charLt b a = true
        · simp [hba, hab] at h2
        · have he : a = b := charLt_asymm_eq (bfalse hab) (bfalse hba)
          subst he
          simp only [if_neg hab] at h1 h2
          rw [charListLt_asymm_eq h1 h2]

theorem charListLt_irrefl : ∀ (as : List Char), charListLt as as = false
  | [] => rfl
  | a :: as => by
      simp only [charListLt]
      have : charLt a a = false := by simp [charLt]
      simp [this, charListLt_irrefl as]

theorem strLt_trans {a b c : String} (h1 : strLt a b = true) (h2 : strLt b c = true) :
    strLt a c = true :=
  charListLt_trans h1 h2

theorem strLt_irrefl (a : String) : strLt a a = false :=
  charListLt_irrefl a.data

theorem strLt_asymm_eq {a b : String} (h1 : strLt a b = false) (h2 : strLt b a = false) :
    a = b := by
  cases a with
  | mk da =>
    cases b with
    | mk db => exact congrArg String.mk (charListLt_asymm_eq h1 h2)

/-- A Prometheus label: an immutable (name, value) pair
(`struct Label`, oura_prometheus.hpp). -/
structure Label where
  name : String
  value : String
deriving DecidableEq

/-- `Label::operator<`: lexicographic comparison of `(name, value)`
(`std::tie(name, value) < std::tie(label.name, label.value)`). -/
def Label.lt (a b : Label) : Bool :=
  if strLt a.name b.name then true
  else if strLt b.name a.name then false
  else strLt a.value b.value

theorem labelLt_trans {a b c : Label} (h1 : Label.lt a b = true) (h2 : Label.lt b c = true) :
    Label.lt a c = true := by
  unfold Label.lt at h1 h2 ⊢
  by_cases hab : strLt a.name b.name = true <;> by_cases hbc : strLt b.name c.name = true <;>
    simp only [hab, hbc, if_true, if_false] at h1 h2 ⊢
  · simp [strLt_trans hab hbc]
  · by_cases hcb : strLt c.name b.name = true
    · simp [hcb] at h2
    · have he : b.name = c.name := strLt_asymm_eq (bfalse hbc) (bfalse hcb)
      rw [← he, hab]
      simp
  · by_cases hba : strLt b.name a.name = true
    · simp [hba] at h1
    · have he : a.name = b.name := strLt_asymm_eq (bfalse hab) (bfalse hba)
      rw [he, hbc]
      simp
  · by_cases hba : strLt b.name a.name = true
    · simp [hba] at h1
    · by_cases hcb : strLt c.name b.name = true
      · simp [hcb] at h2
      · have he : a.name = b.name := strLt_asymm_eq (bfalse hab) (bfalse hba)
        have he2 : b.name = c.name := strLt_asymm_eq (bfalse hbc) (bfalse hcb)
        rw [if_neg hba] at h1
        rw [if_neg hcb] at h2
        rw [he.trans he2]
        simp only [strLt_irrefl, Bool.false_eq_true, if_false]
        exact strLt_trans h1 h2

theorem labelLt_asymm_eq {a b : Label} (h1 : Label.lt a b = false) (h2 : Label.lt b a = false) :
    a = b := by
  unfold Label.lt at h1 h2
  by_cases hab : strLt a.name b.name = true
  · simp [hab] at h1
  · by_cases hba : strLt b.name a.name = true
    · simp [hba, hab] at h2
    · have he : a.name = b.name := strLt_asymm_eq (bfalse hab) (bfalse hba)
      simp only [if_neg hab, if_neg hba] at h1 h2
      have hv : a.value = b.value := strLt_asymm_eq h1 h2
      cases a; cases b
      simp_all

/-- Lexicographic comparison of the sorted element sequences of two
`std::set<Label>` values: the key order of the family cache
`std::map<std::set<Label>, std::shared_ptr<T>>`. -/
def labelListLt : List Label → List Label → Bool
  | _, [] => false
  | [], _ :: _ => true
  | a :: as, b :: bs =>
      if Label.lt a b then true else if Label.lt b a then false else labelListLt as bs

theorem labelListLt_asymm_eq :
    ∀ {as bs : List Label}, labelListLt as bs = false → labelListLt bs as = false → as = bs
  | [], [] => by intro _ _; rfl
  | [], _ :: _ => by intro h1 _; simp [labelListLt] at h1
  | _ :: _, [] => by intro _ h2; simp [labelListLt] at h2
  | a :: as, b :: bs => by
      intro h1 h2
      simp only [labelListLt] at h1 h2
      by_cases hab : Label.lt a b = true
      · simp [hab] at h1
      · by_cases hba : Label.lt b a = true
        · simp [hba, hab] at h2
        · have he : a = b := labelLt_asymm_eq (bfalse hab) (bfalse hba)
          subst he
          simp only [if_neg hab] at h1 h2
          rw [labelListLt_asymm_eq h1 h2]

/-- Ordered insertion into a sorted list: the model of `insert` on
`std::set` / `std::map` (an element with an equivalent key is NOT
overwritten — the container is left unchanged). -/
def sInsert {α : Type} (lt : α → α → Bool) (x : α) : List α → List α
  | [] => [x]
  | y :: ys =>
      if lt x y then x :: y :: ys
      else if lt y x then y :: sInsert lt x ys
      else y :: ys

theorem mem_of_mem_sInsert {α : Type} {lt : α → α → Bool} {x a : α} :
    ∀ {l : List α}, a ∈ sInsert lt x l → a = x ∨ a ∈ l
  | [] => by
      intro h
      simp only [sInsert, List.mem_singleton] at h
      exact Or.inl h
  | y :: ys => by
      intro h
      simp only [sInsert] at h
      by_cases h1 : lt x y = true
      · rw [if_pos h1] at h
        exact (List.mem_cons.mp h).imp id id
      · rw [if_neg h1] at h
        by_cases h2 : lt y x = true
        · rw [if_pos h2] at h
          rcases List.mem_cons.mp h with h' | h'
          · exact Or.inr (List.mem_cons.mpr (Or.inl h'))
          · rcases mem_of_mem_sInsert h' with h'' | h''
            · exact Or.inl h''
            · exact Or.inr (List.mem_cons.mpr (Or.inr h''))
        · rw [if_neg h2] at h
          exact Or.inr h

theorem mem_sInsert_of_mem {α : Type} {lt : α → α → Bool} {x a : α} :
    ∀ {l : List α}, a ∈ l → a ∈ sInsert lt x l
  | [] => by intro h; exact absurd h (List.not_mem_nil a)
  | y :: ys => by
      intro h
      simp only [sInsert]
      by_cases h1 : lt x y = true
      · rw [if_pos h1]
        exact List.mem_cons.mpr (Or.inr h)
      · rw [if_neg h1]
        by_cases h2 : lt y x = true
        · rw [if_pos h2]
          rcases List.mem_cons.mp h with h' | h'
          · exact List.mem_cons.mpr (Or.inl h')
          · exact List.mem_cons.mpr (Or.inr (mem_sInsert_of_mem h'))
        · rw [if_neg h2]
          exact h

theorem pairwise_sInsert {α : Type} {lt : α → α → Bool}
    (htrans : ∀ a b c : α, lt a b = true → lt b c = true → lt a c = true) (x : α) :
    ∀ {l : List α}, l.Pairwise (fun a b => lt a b = true) →
      (sInsert lt x l).Pairwise (fun a b => lt a b = true)
  | [] => by intro _; simp [sInsert]
  | y :: ys => by
      intro hp
      rcases List.pairwise_cons.mp hp with ⟨hy, hys⟩
      simp only [sInsert]
      by_cases h1 : lt x y = true
      · simp only [h1, if_true]
        refine List.pairwise_cons.mpr ⟨?_, hp⟩
        intro b hb
        rcases List.mem_cons.mp hb with h' | h'
        · subst h'; exact h1
        · exact htrans x y b h1 (hy b h')
      · by_cases h2 : lt y x = true
        · simp only [h1, h2, if_false, if_true]
          refine List.pairwise_cons.mpr ⟨?_, pairwise_sInsert htrans x hys⟩
          intro b hb
          rcases mem_of_mem_sInsert hb with h' | h'
          · subst h'; exact h2
          · exact hy b h'
        · simp only [h1, h2, if_false]
          exact hp

theorem pairwise_foldl_sInsert {α : Type} {lt : α → α → Bool}
    (htrans : ∀ a b c : α, lt a b = true → lt b c = true → lt a c = true)
    (xs : List α) : ∀ {acc : List α}, acc.Pairwise (fun a b => lt a b = true) →
      (xs.foldl (fun acc' x => sInsert lt x acc') acc).Pairwise (fun a b => lt a b = true) := by
  induction xs with
  | nil => intro acc h; exact h
  | cons x xs ih => intro acc h; exact ih (pairwise_sInsert htrans x h)

theorem mem_foldl_sInsert_of_mem {α : Type} {lt : α → α → Bool} {a : α}
    (xs : List α) : ∀ {acc : List α}, a ∈ acc →
      a ∈ xs.foldl (fun acc' x => sInsert lt x acc') acc := by
  induction xs with
  | nil => intro acc h; exact h
  | cons x xs ih => intro acc h; exact ih (mem_sInsert_of_mem h)

/-- ASCII `a-zA-Z` (the character classes of the C++ `std::regex` patterns). -/
def asciiAlpha (c : Char) : Bool :=
  (65 ≤ c.toNat && c.toNat ≤ 90) || (97 ≤ c.toNat && c.toNat ≤ 122)

/-- ASCII `0-9`. -/
def asciiDigit (c : Char) : Bool := 48 ≤ c.toNat && c.toNat ≤ 57

/-- First character of `name_format_regex` = `[a-zA-Z_:][a-zA-Z0-9_:]*`. -/
def nameStartChar (c : Char) : Bool := asciiAlpha c || c = '_' || c = ':'

/-- Continuation character of `name_format_regex`. -/
def nameContChar (c : Char) : Bool := asciiAlpha c || asciiDigit c || c = '_' || c = ':'

/-- `check_name_format`: `std::regex_match(name, "[a-zA-Z_:][a-zA-Z0-9_:]*")`;
`true` means the name is accepted, `false` models the
`std::invalid_argument` throw. -/
def check_name_format (s : String) : Bool :=
  match s.data with
  | [] => false
  | c :: cs => nameStartChar c && cs.all nameContChar

/-- First character of `label_name_format_regex` = `[a-zA-Z_][a-zA-Z0-9_]*`. -/
def labelStartChar (c : Char) : Bool := asciiAlpha c || c = '_'

/-- Continuation character of `label_name_format_regex`. -/
def labelContChar (c : Char) : Bool := asciiAlpha c || asciiDigit c || c = '_'

/-- `check_label_name_format`: `std::regex_match(label_name, "[a-zA-Z_][a-zA-Z0-9_]*")`. -/
def check_label_name_format (s : String) : Bool :=
  match s.data with
  | [] => false
  | c :: cs => labelStartChar c && cs.all labelContChar

/-- `enum class MetricType`. -/
inductive MetricType
  | Counter
  | Gauge
  | Summary
  | Histogram
deriving DecidableEq

/-- `metric_type_to_string`: the `switch` mapping each metric type to its
exposition-format type string. -/
def metric_type_to_string : MetricType → String
  | .Counter => "counter"
  | .Gauge => "gauge"
  | .Summary => "summary"
  | .Histogram => "histogram"

/-- Canonical element list of a `std::set<Label>` built from the given
elements (insertion collapses duplicates and sorts by `Label::operator<`). -/
def mkLabelSet (raw : List Label) : List Label :=
  raw.foldl (fun acc l => sInsert Label.lt l acc) []

/-- Canonical element list of a `std::set<std::string>`. -/
def mkStrSet (raw : List String) : List String :=
  raw.foldl (fun acc s => sInsert strLt s acc) []

/-- `a < b` on `double`, used as the key order of `std::set<double>`. -/
def ratLt (a b : ℚ) : Bool := decide (a < b)

/-- Canonical element list of a `std::set<double>`. -/
def mkRatSet (raw : List ℚ) : List ℚ :=
  raw.foldl (fun acc q => sInsert ratLt q acc) []

/-- `class Counter`: one accumulator, `_value(0)` at construction.
Sequentially `_value += v` adds `v` (the concurrent behaviour of
`atomic_double` is modelled separately below). -/
structure Counter where
  value : ℚ
deriving DecidableEq

/-- `Counter()`. -/
def Counter.new : Counter := ⟨0⟩

/-- `Counter::get`. -/
def Counter.get (c : Counter) : ℚ := c.value

/-- `Counter::inc`. -/
def Counter.inc (c : Counter) : Counter := ⟨c.value + 1⟩

/-- `Counter::add`: `if (value > 0.0) { _value += value; }`. -/
def Counter.add (v : ℚ) (c : Counter) : Counter :=
  if v > 0 then ⟨c.value + v⟩ else c

/-- `class Gauge`: one accumulator initialised to `initial_value`. -/
structure Gauge where
  value : ℚ
deriving DecidableEq

/-- `Gauge(initial_value)`. -/
def Gauge.new (initial_value : ℚ) : Gauge := ⟨initial_value⟩

/-- `Gauge::get`. -/
def Gauge.get (g : Gauge) : ℚ := g.value

/-- `Gauge::set`. -/
def Gauge.set (v : ℚ) (_g : Gauge) : Gauge := ⟨v⟩

/-- `Gauge::inc`. -/
def Gauge.inc (g : Gauge) : Gauge := ⟨g.value + 1⟩

/-- `Gauge::dec`. -/
def Gauge.dec (g : Gauge) : Gauge := ⟨g.value - 1⟩

/-- `Gauge::add`: `if (value > 0.0) { _value += value; }`. -/
def Gauge.add (v : ℚ) (g : Gauge) : Gauge :=
  if v > 0 then ⟨g.value + v⟩ else g

/-- `Gauge::sub`: `if (value > 0.0) { _value -= value; }`. -/
def Gauge.sub (v : ℚ) (g : Gauge) : Gauge :=
  if v > 0 then ⟨g.value - v⟩ else g

/-- A bucket upper bound: a finite `double` or
`std::numeric_limits<double>::infinity()`. -/
inductive Bound
  | fin (q : ℚ)
  | inf
deriving DecidableEq

/-- Key order of the `std::map<double, atomic_double>` bucket map
(`double` comparison: every finite value is below infinity). -/
def Bound.blt : Bound → Bound → Bool
  | .fin a, .fin b => decide (a < b)
  | .fin _, .inf => true
  | .inf, _ => false

/-- The test `value <= bucket.first` in `Histogram::observe`
(`v <= +inf` holds for every finite `v`). -/
def leBound (v : ℚ) : Bound → Bool
  | .fin b => decide (v ≤ b)
  | .inf => true

/-- `class Histogram`: the bucket map (ascending bound order, as iterated
by `std::map`) and the running sum. -/
structure Histogram where
  buckets : List (Bound × ℚ)
  sum : ℚ
deriving DecidableEq

/-- Key-order insertion into the bucket map. -/
def bucketKeyLt (p q : Bound × ℚ) : Bool := Bound.blt p.1 q.1

/-- `Histogram(buckets)`: `_sum(0)`; inserts `{+inf, 0}` and then `{b, 0}`
for every bound `b` of the `std::set<double>` argument. -/
def Histogram.new (bucketBounds : List ℚ) : Histogram :=
  { buckets := (mkRatSet bucketBounds).foldl
      (fun acc b => sInsert bucketKeyLt (.fin b, 0) acc) [(.inf, 0)],
    sum := 0 }

/-- `Histogram::observe(value)`: `_sum += value`, then every bucket with
`value <= bucket.first` gets `bucket.second += 1`. -/
def Histogram.observe (v : ℚ) (h : Histogram) : Histogram :=
  { buckets := h.buckets.map (fun bc => if leBound v bc.1 then (bc.1, bc.2 + 1) else bc),
    sum := h.sum + v }

/-- `default_buckets = {0.005, 0.01, 0.025, 0.05, 0.1, 0.25, 0.5, 1, 2.5, 5, 10}`. -/
def default_buckets : List ℚ :=
  mkRatSet [5/1000, 1/100, 25/1000, 5/100, 1/10, 25/100, 5/10, 1, 5/2, 5, 10]

/-- `MetricFamily<T>` state: the label-name schema `_labels_names`
(a `std::set<std::string>`, canonical sorted list) and the cache
`_metrics : std::map<std::set<Label>, std::shared_ptr<T>>`.  Pointer
identity of the `shared_ptr` is modelled by a fresh `ℕ` id recorded with
each stored metric; `next_id` is the id the next `make_shared` returns. -/
structure Family (T : Type) where
  labels_names : List String
  metrics : List (List Label × (ℕ × T))
  next_id : ℕ
deriving DecidableEq

/-- The family state right after `MetricFamily(name, description, type,
labels_names)` succeeded. -/
def Family.init (T : Type) (labels_names : List String) : Family T :=
  ⟨mkStrSet labels_names, [], 0⟩

/-- `_metrics.find(labels)`: key lookup by `std::set<Label>` equality. -/
def famFind {T : Type} (k : List Label) : List (List Label × (ℕ × T)) → Option (ℕ × T)
  | [] => none
  | e :: rest => if e.1 = k then some e.2 else famFind k rest

/-- Key order of the family cache map. -/
def famKeyLt {T : Type} (p q : List Label × (ℕ × T)) : Bool := labelListLt p.1 q.1

/-- `MetricFamily<T>::labels(labels, args...)`.  `raw` are the elements the
caller builds the `std::set<Label>` argument from; `new_metric` is the
`T(args...)` that `std::make_shared<T>(args...)` would construct.  The two
`throw std::invalid_argument` sites become `.error` results; they fire
before any lookup or mutation, so the returned family state is the
receiver unchanged. -/
def MetricFamily.labels {T : Type} (raw : List Label) (new_metric : T) (f : Family T) :
    Except String (ℕ × T) × Family T :=
  let ls := mkLabelSet raw
  if ls.length ≠ f.labels_names.length then
    (.error "Incorrect number of label given", f)
  else if ls.any (fun l => !(f.labels_names.contains l.name)) then
    (.error "Incorrect label combinaison given", f)
  else
    match famFind ls f.metrics with
    | some m => (.ok m, f)
    | none =>
        (.ok (f.next_id, new_metric),
         { f with
             metrics := sInsert famKeyLt (ls, (f.next_id, new_metric)) f.metrics,
             next_id := f.next_id + 1 })

/-- `CounterFamily::labels(labels)`: forwards no construction argument, so
a cache miss constructs `Counter()`. -/
def CounterFamily.labels (raw : List Label) (f : Family Counter) :
    Except String (ℕ × Counter) × Family Counter :=
  MetricFamily.labels raw Counter.new f

/-- `GaugeFamily::labels(labels, default_value)`. -/
def GaugeFamily.labels (raw : List Label) (default_value : ℚ) (f : Family Gauge) :
    Except String (ℕ × Gauge) × Family Gauge :=
  MetricFamily.labels raw (Gauge.new default_value) f

/-- `HistogramFamily::labels(labels)`: forwards the family's stored
`_buckets`. -/
def HistogramFamily.labels (raw : List Label) (hbuckets : List ℚ) (f : Family Histogram) :
    Except String (ℕ × Histogram) × Family Histogram :=
  MetricFamily.labels raw (Histogram.new hbuckets) f

/-- The concrete payload behind the abstract `Metric` interface: which of
the six concrete `Metric` subclasses the object is, with its state.  A
`HistogramFamily` additionally stores its `_buckets` ladder. -/
inductive MetricImpl
  | counterMetric (c : Counter)
  | gaugeMetric (g : Gauge)
  | histogramMetric (h : Histogram)
  | counterFamily (f : Family Counter)
  | gaugeFamily (f : Family Gauge)
  | histogramFamily (hbuckets : List ℚ) (f : Family Histogram)
deriving DecidableEq

/-- The abstract `class Metric`: `_name`, `_description`, `_type` (field
`mtype` here), plus the concrete subclass state that the virtual
`serialize` dispatches on. -/
structure MetricEntry where
  name : String
  description : String
  mtype : MetricType
  impl : MetricImpl
deriving DecidableEq

/-- `CounterMetric(name, description)`: `Metric(name, description,
MetricType::Counter)` whose base constructor runs `check_name_format`. -/
def CounterMetric.new (name description : String) : Except String MetricEntry :=
  if check_name_format name then
    .ok ⟨name, description, .Counter, .counterMetric Counter.new⟩
  else .error "Metric name does not follow format"

/-- `GaugeMetric(name, description, initial_value)`. -/
def GaugeMetric.new (name description : String) (initial_value : ℚ) :
    Except String MetricEntry :=
  if check_name_format name then
    .ok ⟨name, description, .Gauge, .gaugeMetric (Gauge.new initial_value)⟩
  else .error "Metric name does not follow format"

/-- `HistogramMetric(name, description, buckets)`. -/
def HistogramMetric.new (name description : String) (bucketBounds : List ℚ) :
    Except String MetricEntry :=
  if check_name_format name then
    .ok ⟨name, description, .Histogram, .histogramMetric (Histogram.new bucketBounds)⟩
  else .error "Metric name does not follow format"

/-- `CounterFamily(name, description, labels_names)`: the `Metric` base
checks the metric name, then `MetricFamily` checks every label name. -/
def CounterFamily.new (name description : String) (labels_names : List String) :
    Except String MetricEntry :=
  if check_name_format name then
    if (mkStrSet labels_names).all check_label_name_format then
      .ok ⟨name, description, .Counter, .counterFamily (Family.init Counter labels_names)⟩
    else .error "Label name does not follow format"
  else .error "Metric name does not follow format"

/-- `GaugeFamily(name, description, labels_names)`. -/
def GaugeFamily.new (name description : String) (labels_names : List String) :
    Except String MetricEntry :=
  if check_name_format name then
    if (mkStrSet labels_names).all check_label_name_format then
      .ok ⟨name, description, .Gauge, .gaugeFamily (Family.init Gauge labels_names)⟩
    else .error "Label name does not follow format"
  else .error "Metric name does not follow format"

/-- `HistogramFamily(name, description, labels_names, buckets)`.  NOTE:
the source (oura_prometheus.hpp line 450) passes `MetricType::Gauge` to
the `MetricFamily` base constructor, so the stored kind tag is `Gauge`,
not `Histogram`; this model reproduces that. -/
def HistogramFamily.new (name description : String) (labels_names : List String)
    (bucketBounds : List ℚ) : Except String MetricEntry :=
  if check_name_format name then
    if (mkStrSet labels_names).all check_label_name_format then
      .ok ⟨name, description, .Gauge,
        .histogramFamily (mkRatSet bucketBounds) (Family.init Histogram labels_names)⟩
    else .error "Label name does not follow format"
  else .error "Metric name does not follow format"

/-- `Metric::get_type`. -/
def MetricEntry.get_type (m : MetricEntry) : MetricType := m.mtype

/-- `Metric::get_name`. -/
def MetricEntry.get_name (m : MetricEntry) : String := m.name

/-- Key order of `std::map<std::string, _>`. -/
def strKeyLt {α : Type} (p q : String × α) : Bool := strLt p.1 q.1

/-- `std::map<std::string, α>::find` modelled as key lookup. -/
def regFind {α : Type} (name : String) : List (String × α) → Option α
  | [] => none
  | e :: rest => if e.1 = name then some e.2 else regFind name rest

/-- `class Registry`: `_register_metrics : std::map<std::string,
std::shared_ptr<Metric>>` as a key-sorted association list (the
`std::mutex` only serialises access and has no sequential effect). -/
structure Registry where
  metrics : List (String × MetricEntry)
deriving DecidableEq

/-- `Registry::register_metric`: stores the metric under its name iff the
name is not yet taken; returns whether it was stored. -/
def Registry.register_metric (m : MetricEntry) (r : Registry) : Bool × Registry :=
  if (regFind m.name r.metrics).isSome then (false, r)
  else (true, ⟨sInsert strKeyLt (m.name, m) r.metrics⟩)

/-- `Registry::unregister_metric`: `_register_metrics.erase(metric_name) != 0`. -/
def Registry.unregister_metric (name : String) (r : Registry) : Bool × Registry :=
  ((regFind name r.metrics).isSome, ⟨r.metrics.filter (fun e => e.1 != name)⟩)

/-- `Registry::get_metric`: the stored metric, or the `nullptr` result
(`none`) when the name is absent. -/
def Registry.get_metric (name : String) (r : Registry) : Option MetricEntry :=
  regFind name r.metrics

/-- `Registry::size`. -/
def Registry.size (r : Registry) : ℕ := r.metrics.length

/-- `Registry::collect`: inserts every registered metric into the
caller-supplied snapshot map. -/
def Registry.collect (r : Registry) (out : List (String × MetricEntry)) :
    List (String × MetricEntry) :=
  r.metrics.foldl (fun acc e => sInsert strKeyLt e acc) out

/-- `escape_double_quotes`: replaces every `"` by `\"`. -/
def escape_double_quotes (s : String) : String :=
  String.mk ((s.data.map (fun c => if c = '\"' then ['\\', '\"'] else [c])).flatten)

/-- Left-pads a digit string with zeros to the given width. -/
def padZeros (s : String) (n : ℕ) : String :=
  if s.length ≥ n then s else String.mk (List.replicate (n - s.length) '0') ++ s

/-- Drops trailing zero digits. -/
def trimZeros (s : String) : String :=
  String.mk ((s.data.reverse.dropWhile (fun c => c = '0')).reverse)

/-- Modelled from the spec: "Numeric values are rendered using the
platform's default floating-point text conversion (no fixed precision
contract)" — the source streams the raw `double` with `stream << value`.
An integral value prints as its plain digits (the only case the theorems
below evaluate); a non-integral value is rendered with the default
six-digit precision of `std::ostream`, trailing zeros trimmed. -/
def render_double (q : ℚ) : String :=
  if q.den = 1 then toString q.num
  else
    let neg := decide (q < 0)
    let a : ℚ := if neg then -q else q
    let fracDigits : ℕ := 6 - min 6 (toString a.floor).length
    let scaled : ℤ := round (a * ((10 : ℚ) ^ fracDigits))
    let ip : ℤ := scaled / ((10 : ℤ) ^ fracDigits)
    let fp : ℤ := scaled % ((10 : ℤ) ^ fracDigits)
    let fpStr := trimZeros (padZeros (toString fp.natAbs) fracDigits)
    (if neg then "-" else "") ++ toString ip ++
      (if fpStr = "" then "" else "." ++ fpStr)

/-- `std::to_string(double)`: fixed `%f` conversion with six decimal
places; the infinite bound prints as `inf`. -/
def double_to_string : Bound → String
  | .inf => "inf"
  | .fin q =>
      let neg := decide (q < 0)
      let a : ℚ := if neg then -q else q
      let scaled : ℤ := round (a * 1000000)
      (if neg then "-" else "") ++ toString (scaled / 1000000) ++ "." ++
        padZeros (toString (scaled % 1000000).natAbs) 6

/-- `TextSerializer::metric_serializer`: one sample line.  The label block
is omitted when both the label set and the additional label are empty;
otherwise the labels are streamed in set order followed by the additional
label, comma-separated. -/
def metric_serializer (name : String) (value : ℚ) (labels : List Label)
    (additional_label : Label) : String :=
  let parts := labels.map (fun l => l.name ++ "=\"" ++ escape_double_quotes l.value ++ "\"")
  let parts := if additional_label.name = "" then parts
    else parts ++ [additional_label.name ++ "=\"" ++
      escape_double_quotes additional_label.value ++ "\""]
  name ++
    (if labels.isEmpty && additional_label.name = "" then ""
     else "\x7b" ++ String.intercalate "," parts ++ "\x7d") ++
    " " ++ render_double value ++ "\n"

/-- `Counter::serialize`: one `(value, labels, no extra label)` sample. -/
def Counter.samples (c : Counter) (labels : List Label) : List (ℚ × List Label × Label) :=
  [(c.value, labels, ⟨"", ""⟩)]

/-- `Gauge::serialize`. -/
def Gauge.samples (g : Gauge) (labels : List Label) : List (ℚ × List Label × Label) :=
  [(g.value, labels, ⟨"", ""⟩)]

/-- `Histogram::serialize`: one sample per bucket in ascending bound
order, the count as the value and `le` = printed bound as extra label. -/
def Histogram.samples (h : Histogram) (labels : List Label) :
    List (ℚ × List Label × Label) :=
  h.buckets.map (fun bc => (bc.2, labels, ⟨"le", double_to_string bc.1⟩))

/-- `MetricFamily<T>::serialize`: every cached metric serialises itself
under its label-set key, in cache map order. -/
def Family.samples {T : Type}
    (sampleFn : T → List Label → List (ℚ × List Label × Label)) (f : Family T) :
    List (ℚ × List Label × Label) :=
  (f.metrics.map (fun e => sampleFn e.2.2 e.1)).flatten

/-- The virtual `Metric::serialize` dispatch: which samples the metric
contributes. -/
def MetricEntry.samples (m : MetricEntry) : List (ℚ × List Label × Label) :=
  match m.impl with
  | .counterMetric c => c.samples []
  | .gaugeMetric g => g.samples []
  | .histogramMetric h => h.samples []
  | .counterFamily f => Family.samples Counter.samples f
  | .gaugeFamily f => Family.samples Gauge.samples f
  | .histogramFamily _ f => Family.samples Histogram.samples f

/-- The `# HELP` line, `# TYPE` line and sample lines one metric
contributes to `TextSerializer::serialize`. -/
def metricBlock (m : MetricEntry) : String :=
  "# HELP " ++ m.name ++ " " ++ m.description ++ "\n" ++
  "# TYPE " ++ m.name ++ " " ++ metric_type_to_string m.mtype ++ "\n" ++
  String.join (m.samples.map (fun s => metric_serializer m.name s.1 s.2.1 s.2.2))

/-- `TextSerializer::serialize`: walks the snapshot map in its (name-)
order and emits each metric's block.  (A snapshot entry holds the metric
itself: the expired-`weak_ptr` skip has no counterpart in the model, where
snapshots own their entries.) -/
def TextSerializer.serialize (metrics : List (String × MetricEntry)) : String :=
  String.join (metrics.map (fun e => metricBlock e.2))

theorem famFind_sInsert_self {T : Type} {k : List Label} {m : ℕ × T} :
    ∀ {l : List (List Label × (ℕ × T))}, famFind k l = none →
      famFind k (sInsert famKeyLt (k, m) l) = some m
  | [] => by
      intro _
      simp [sInsert, famFind]
  | e :: rest => by
      intro h
      rw [famFind] at h
      by_cases he : e.1 = k
      · simp [he] at h
      · rw [if_neg he] at h
        simp only [sInsert]
        by_cases h1 : famKeyLt (k, m) e = true
        · rw [if_pos h1, famFind, famFind, if_pos rfl]
        · rw [if_neg h1]
          by_cases h2 : famKeyLt e (k, m) = true
          · rw [if_pos h2, famFind, if_neg he]
            exact famFind_sInsert_self h
          · exfalso
            exact he (labelListLt_asymm_eq (bfalse h2) (bfalse h1))

theorem length_sInsert_of_famFind_none {T : Type} {k : List Label} {m : ℕ × T} :
    ∀ {l : List (List Label × (ℕ × T))}, famFind k l = none →
      (sInsert famKeyLt (k, m) l).length = l.length + 1
  | [] => by intro _; rfl
  | e :: rest => by
      intro h
      rw [famFind] at h
      by_cases he : e.1 = k
      · simp [he] at h
      · rw [if_neg he] at h
        simp only [sInsert]
        by_cases h1 : famKeyLt (k, m) e = true
        · rw [if_pos h1]
          rfl
        · rw [if_neg h1]
          by_cases h2 : famKeyLt e (k, m) = true
          · rw [if_pos h2]
            simp only [List.length_cons, length_sInsert_of_famFind_none h]
          · exfalso
            exact he (labelListLt_asymm_eq (bfalse h2) (bfalse h1))

theorem regFind_sInsert_self {α : Type} {name : String} {v : α} :
    ∀ {l : List (String × α)}, regFind name l = none →
      regFind name (sInsert strKeyLt (name, v) l) = some v
  | [] => by
      intro _
      simp [sInsert, regFind]
  | e :: rest => by
      intro h
      rw [regFind] at h
      by_cases he : e.1 = name
      · simp [he] at h
      · rw [if_neg he] at h
        simp only [sInsert]
        by_cases h1 : strKeyLt (name, v) e = true
        · rw [if_pos h1, regFind, regFind, if_pos rfl]
        · rw [if_neg h1]
          by_cases h2 : strKeyLt e (name, v) = true
          · rw [if_pos h2, regFind, if_neg he]
            exact regFind_sInsert_self h
          · exfalso
            exact he (strLt_asymm_eq (bfalse h2) (bfalse h1))

theorem regFind_filter_ne {α : Type} (name : String) :
    ∀ (l : List (String × α)), regFind name (l.filter (fun e => e.1 != name)) = none
  | [] => rfl
  | e :: rest => by
      rw [List.filter_cons]
      by_cases he : e.1 = name
      · simp only [he, bne_self_eq_false, Bool.false_eq_true, if_false]
        exact regFind_filter_ne name rest
      · simp only [bne_iff_ne, ne_eq, he, not_false_eq_true, if_true, regFind,
          if_neg he]
        exact regFind_filter_ne name rest

theorem boundBlt_trans {a b c : Bound} (h1 : Bound.blt a b = true) (h2 : Bound.blt b c = true) :
    Bound.blt a c = true := by
  cases a <;> cases b <;> cases c <;> simp_all [Bound.blt]
  exact lt_trans h1 h2

theorem bucketKeyLt_trans (p q r : Bound × ℚ) (h1 : bucketKeyLt p q = true)
    (h2 : bucketKeyLt q r = true) : bucketKeyLt p r = true :=
  boundBlt_trans h1 h2

theorem leBound_mono {v : ℚ} {b1 b2 : Bound} (hb : Bound.blt b1 b2 = true)
    (hv : leBound v b1 = true) : leBound v b2 = true := by
  cases b1 <;> cases b2 <;> simp_all [Bound.blt, leBound]
  exact le_of_lt (lt_of_le_of_lt hv hb)

theorem filter_length_mono {α : Type} {p q : α → Bool} (h : ∀ x, p x = true → q x = true) :
    ∀ (l : List α), (l.filter p).length ≤ (l.filter q).length
  | [] => Nat.le_refl 0
  | x :: xs => by
      rw [List.filter_cons, List.filter_cons]
      by_cases hp : p x = true
      · rw [if_pos hp, if_pos (h x hp)]
        exact Nat.succ_le_succ (filter_length_mono h xs)
      · rw [if_neg hp]
        by_cases hq : q x = true
        · rw [if_pos hq]
          exact Nat.le_succ_of_le (filter_length_mono h xs)
        · rw [if_neg hq]
          exact filter_length_mono h xs

theorem mem_of_mem_foldl_sInsertF {α β : Type} {lt : α → α → Bool} (g : β → α)
    (xs : List β) : ∀ {acc : List α} {a : α},
      a ∈ xs.foldl (fun acc' x => sInsert lt (g x) acc') acc →
        a ∈ acc ∨ ∃ x ∈ xs, a = g x := by
  induction xs with
  | nil => intro acc a h; exact Or.inl h
  | cons x xs ih =>
      intro acc a h
      rcases ih h with h' | h'
      · rcases mem_of_mem_sInsert h' with h'' | h''
        · exact Or.inr ⟨x, List.mem_cons_self x xs, h''⟩
        · exact Or.inl h''
      · rcases h' with ⟨y, hy, hgy⟩
        exact Or.inr ⟨y, List.mem_cons.mpr (Or.inr hy), hgy⟩

theorem mem_foldl_sInsertF_of_mem {α β : Type} {lt : α → α → Bool} (g : β → α)
    (xs : List β) : ∀ {acc : List α} {a : α}, a ∈ acc →
      a ∈ xs.foldl (fun acc' x => sInsert lt (g x) acc') acc := by
  induction xs with
  | nil => intro acc a h; exact h
  | cons x xs ih => intro acc a h; exact ih (mem_sInsert_of_mem h)

theorem pairwise_foldl_sInsertF {α β : Type} {lt : α → α → Bool}
    (htrans : ∀ a b c : α, lt a b = true → lt b c = true → lt a c = true) (g : β → α)
    (xs : List β) : ∀ {acc : List α}, acc.Pairwise (fun a b => lt a b = true) →
      (xs.foldl (fun acc' x => sInsert lt (g x) acc') acc).Pairwise
        (fun a b => lt a b = true) := by
  induction xs with
  | nil => intro acc h; exact h
  | cons x xs ih => intro acc h; exact ih (pairwise_sInsert htrans (g x) h)

theorem histogram_new_pairwise (bounds : List ℚ) :
    (Histogram.new bounds).buckets.Pairwise (fun p q => bucketKeyLt p q = true) := by
  unfold Histogram.new
  exact pairwise_foldl_sInsertF bucketKeyLt_trans (fun b => (.fin b, 0)) (mkRatSet bounds)
    (List.pairwise_singleton _ _)

theorem histogram_new_counts_zero (bounds : List ℚ) :
    ∀ bc ∈ (Histogram.new bounds).buckets, bc.2 = 0 := by
  intro bc hbc
  unfold Histogram.new at hbc
  rcases mem_of_mem_foldl_sInsertF _ _ hbc with h | ⟨x, _, hx⟩
  · simp only [List.mem_singleton] at h
    rw [h]
  · rw [hx]

theorem observe_foldl_buckets (obs : List ℚ) :
    ∀ (h0 : Histogram), (obs.foldl (fun h w => h.observe w) h0).buckets =
      h0.buckets.map
        (fun bc => (bc.1, bc.2 + ((obs.filter (fun w => leBound w bc.1)).length : ℚ))) := by
  induction obs with
  | nil =>
      intro h0
      simp
  | cons v obs ih =>
      intro h0
      rw [List.foldl_cons, ih (h0.observe v)]
      simp only [Histogram.observe, List.map_map]
      apply List.map_congr_left
      intro bc _
      by_cases hv : leBound v bc.1 = true
      · simp only [Function.comp, hv, if_true, List.filter_cons, List.length_cons]
        push_cast
        ring_nf
      · simp only [Function.comp, hv, Bool.false_eq_true, if_false, List.filter_cons]

theorem observe_foldl_pairwise (bounds obs : List ℚ) :
    ((obs.foldl (fun h w => h.observe w) (Histogram.new bounds)).buckets).Pairwise
      (fun p q => p.2 ≤ q.2) := by
  rw [observe_foldl_buckets, List.pairwise_map]
  refine List.Pairwise.imp_of_mem ?_ (histogram_new_pairwise bounds)
  intro a b ha hb hab
  show a.2 + _ ≤ b.2 + _
  rw [histogram_new_counts_zero bounds a ha, histogram_new_counts_zero bounds b hb,
    zero_add, zero_add]
  exact_mod_cast filter_length_mono (fun v hv => leBound_mono hab hv) obs

/-- C5: `Histogram::observe(v)` adds exactly `v` to the sum accumulator
and increments exactly the buckets whose upper bound is ≥ `v`; the
mandatory `+inf` bucket is present (with initial count 0) and catches
every observation; after any sequence of observations each bucket's count
is the number of observations ≤ its bound, so in ascending bound order the
counts are non-decreasing. -/
theorem histogram_observe_cumulative (bounds obs : List ℚ) (v : ℚ) :
    ((obs.foldl (fun h w => h.observe w) (Histogram.new bounds)).observe v).sum =
        (obs.foldl (fun h w => h.observe w) (Histogram.new bounds)).sum + v
    ∧ ((obs.foldl (fun h w => h.observe w) (Histogram.new bounds)).observe v).buckets =
        (obs.foldl (fun h w => h.observe w) (Histogram.new bounds)).buckets.map
          (fun bc => if leBound v bc.1 then (bc.1, bc.2 + 1) else bc)
    ∧ (Bound.inf, (0 : ℚ)) ∈ (Histogram.new bounds).buckets
    ∧ leBound v Bound.inf = true
    ∧ (obs.foldl (fun h w => h.observe w) (Histogram.new bounds)).buckets =
        (Histogram.new bounds).buckets.map
          (fun bc => (bc.1, bc.2 + ((obs.filter (fun w => leBound w bc.1)).length : ℚ)))
    ∧ (((obs.foldl (fun h w => h.observe w) (Histogram.new bounds)).observe v).buckets).Pairwise
        (fun p q => p.2 ≤ q.2) := by
  refine ⟨rfl, rfl, ?_, rfl, observe_foldl_buckets obs (Histogram.new bounds), ?_⟩
  · unfold Histogram.new
    exact mem_foldl_sInsertF_of_mem (fun b => (Bound.fin b, (0 : ℚ))) (mkRatSet bounds)
      (List.mem_singleton.mpr rfl)
  · have h := observe_foldl_pairwise bounds (obs ++ [v])
    rw [List.foldl_append, List.foldl_cons, List.foldl_nil] at h
    exact h

/-- C6: `Counter::add(v)` leaves the value unchanged for `v ≤ 0` and adds
exactly `v` for `v > 0`; `Gauge::sub(v)` is a no-op for `v ≤ 0` and
subtracts exactly `v` for `v > 0`. -/
theorem counter_add_gauge_sub_sign_guard (c : Counter) (g : Gauge) (v : ℚ) :
    (v ≤ 0 → (c.add v).value = c.value) ∧ (0 < v → (c.add v).value = c.value + v) ∧
    (v ≤ 0 → (g.sub v).value = g.value) ∧ (0 < v → (g.sub v).value = g.value - v) := by
  refine ⟨fun h => ?_, fun h => ?_, fun h => ?_, fun h => ?_⟩
  · simp only [Counter.add, if_neg (not_lt.mpr h)]
  · simp only [Counter.add, if_pos h]
  · simp only [Gauge.sub, if_neg (not_lt.mpr h)]
  · simp only [Gauge.sub, if_pos h]

/-- Witness for C6 at concrete inputs. -/
theorem counter_add_gauge_sub_sign_guard_witness :
    ((0 : ℚ) ≤ 0 ∧ (Counter.add 0 ⟨5⟩).value = (5 : ℚ)) ∧
    ((0 : ℚ) < 2 ∧ (Counter.add 2 ⟨5⟩).value = (5 : ℚ) + 2) ∧
    ((0 : ℚ) ≤ 0 ∧ (Gauge.sub 0 ⟨7⟩).value = (7 : ℚ)) ∧
    ((0 : ℚ) < 3 ∧ (Gauge.sub 3 ⟨7⟩).value = (7 : ℚ) - 3) :=
  ⟨⟨le_refl 0, (counter_add_gauge_sub_sign_guard ⟨5⟩ ⟨7⟩ 0).1 (le_refl 0)⟩,
   ⟨by decide, (counter_add_gauge_sub_sign_guard ⟨5⟩ ⟨7⟩ 2).2.1 (by decide)⟩,
   ⟨le_refl 0, (counter_add_gauge_sub_sign_guard ⟨5⟩ ⟨7⟩ 0).2.2.1 (le_refl 0)⟩,
   ⟨by decide, (counter_add_gauge_sub_sign_guard ⟨5⟩ ⟨7⟩ 3).2.2.2 (by decide)⟩⟩

theorem labels_spec {T : Type} (raw : List Label) (m : T) (f : Family T) :
    MetricFamily.labels raw m f =
      if (mkLabelSet raw).length ≠ f.labels_names.length then
        (.error "Incorrect number of label given", f)
      else if (mkLabelSet raw).any (fun l => !(f.labels_names.contains l.name)) then
        (.error "Incorrect label combinaison given", f)
      else
        match famFind (mkLabelSet raw) f.metrics with
        | some mm => (.ok mm, f)
        | none =>
            (.ok (f.next_id, m),
             { f with
                 metrics := sInsert famKeyLt (mkLabelSet raw, (f.next_id, m)) f.metrics,
                 next_id := f.next_id + 1 }) := rfl

theorem labels_error_count {T : Type} (raw : List Label) (m : T) (f : Family T)
    (h1 : (mkLabelSet raw).length ≠ f.labels_names.length) :
    MetricFamily.labels raw m f = (.error "Incorrect number of label given", f) := by
  rw [labels_spec, if_pos h1]

theorem labels_error_names {T : Type} (raw : List Label) (m : T) (f : Family T)
    (h1 : ¬ (mkLabelSet raw).length ≠ f.labels_names.length)
    (h2 : ((mkLabelSet raw).any fun l => !(f.labels_names.contains l.name)) = true) :
    MetricFamily.labels raw m f = (.error "Incorrect label combinaison given", f) := by
  rw [labels_spec, if_neg h1, if_pos h2]

theorem labels_found {T : Type} (raw : List Label) (m : T) (f : Family T) {mm : ℕ × T}
    (h1 : ¬ (mkLabelSet raw).length ≠ f.labels_names.length)
    (h2 : ¬ ((mkLabelSet raw).any fun l => !(f.labels_names.contains l.name)) = true)
    (hf : famFind (mkLabelSet raw) f.metrics = some mm) :
    MetricFamily.labels raw m f = (.ok mm, f) := by
  rw [labels_spec, if_neg h1, if_neg h2, hf]

theorem labels_absent {T : Type} (raw : List Label) (m : T) (f : Family T)
    (h1 : ¬ (mkLabelSet raw).length ≠ f.labels_names.length)
    (h2 : ¬ ((mkLabelSet raw).any fun l => !(f.labels_names.contains l.name)) = true)
    (hf : famFind (mkLabelSet raw) f.metrics = none) :
    MetricFamily.labels raw m f =
      (.ok (f.next_id, m),
       { f with
           metrics := sInsert famKeyLt (mkLabelSet raw, (f.next_id, m)) f.metrics,
           next_id := f.next_id + 1 }) := by
  rw [labels_spec, if_neg h1, if_neg h2, hf]

/-- The keys of a family's cache map. -/
def famKeys {T : Type} (f : Family T) : List (List Label) := f.metrics.map (fun e => e.1)

/-- The amended cache-key invariant: every key has exactly as many labels
as the schema has names and mentions only schema names. -/
def FamInv {T : Type} (f : Family T) : Prop :=
  ∀ k ∈ famKeys f, k.length = f.labels_names.length ∧ ∀ l ∈ k, l.name ∈ f.labels_names

theorem labels_inv_step {T : Type} {f : Family T} (raw : List Label) (m : T)
    (hinv : FamInv f) :
    FamInv (MetricFamily.labels raw m f).2 ∧
    (MetricFamily.labels raw m f).2.labels_names = f.labels_names ∧
    ∀ k ∈ famKeys f, k ∈ famKeys (MetricFamily.labels raw m f).2 := by
  by_cases h1 : (mkLabelSet raw).length ≠ f.labels_names.length
  · rw [labels_error_count raw m f h1]
    exact ⟨hinv, rfl, fun k hk => hk⟩
  · by_cases h2 : ((mkLabelSet raw).any fun l => !(f.labels_names.contains l.name)) = true
    · rw [labels_error_names raw m f h1 h2]
      exact ⟨hinv, rfl, fun k hk => hk⟩
    · cases hf : famFind (mkLabelSet raw) f.metrics with
      | some mm =>
          rw [labels_found raw m f h1 h2 hf]
          exact ⟨hinv, rfl, fun k hk => hk⟩
      | none =>
          rw [labels_absent raw m f h1 h2 hf]
          refine ⟨?_, rfl, ?_⟩
          · intro k hk
            rcases List.mem_map.mp hk with ⟨e, he, hke⟩
            rcases mem_of_mem_sInsert he with h' | h'
            · subst h'
              simp only at hke
              rw [← hke]
              refine ⟨not_ne_iff.mp h1, ?_⟩
              intro l hl
              have hc : (f.labels_names.contains l.name) = true := by
                by_contra hc
                refine h2 (List.any_eq_true.mpr ⟨l, hl, ?_⟩)
                show (!(f.labels_names.contains l.name)) = true
                simp only [bfalse hc, Bool.not_false]
              exact List.elem_iff.mp hc
            · exact hinv k (List.mem_map.mpr ⟨e, h', hke⟩)
          · intro k hk
            rcases List.mem_map.mp hk with ⟨e, he, hke⟩
            exact List.mem_map.mpr ⟨e, mem_sInsert_of_mem he, hke⟩

/-- One `labels()` call made by a client of a family: the elements of the
`std::set<Label>` argument and the metric a cache miss would construct. -/
structure FamCall (T : Type) where
  raw : List Label
  metric : T

/-- The family state after a `labels()` call (a thrown validation error
leaves the family unchanged). -/
def applyFamCall {T : Type} (f : Family T) (c : FamCall T) : Family T :=
  (MetricFamily.labels c.raw c.metric f).2

theorem famInv_foldl {T : Type} (cs : List (FamCall T)) :
    ∀ {f : Family T}, FamInv f →
      FamInv (cs.foldl applyFamCall f) ∧
      ∀ k ∈ famKeys f, k ∈ famKeys (cs.foldl applyFamCall f) := by
  induction cs with
  | nil => intro f h; exact ⟨h, fun k hk => hk⟩
  | cons c cs ih =>
      intro f h
      obtain ⟨h1, _, h3⟩ := labels_inv_step c.raw c.metric h
      obtain ⟨ih1, ih2⟩ := ih h1
      exact ⟨ih1, fun k hk => ih2 k (h3 k hk)⟩

theorem famInv_init {T : Type} (names : List String) : FamInv (Family.init T names) := by
  intro k hk
  simp [Family.init, famKeys] at hk

/-- C1 (amended): along any sequence of `labels()` calls on a freshly
constructed family, every cache key has exactly as many labels as the
schema has names and every label name in a key belongs to the schema (a
schema name may be missing from a key when another repeats with two
values, see the counterexample), and the key set only grows: a key present
after some calls is still present after any further calls. -/
theorem family_key_invariant (T : Type) (names : List String) (cs1 cs2 : List (FamCall T)) :
    FamInv (cs1.foldl applyFamCall (Family.init T names)) ∧
    ∀ k ∈ famKeys (cs1.foldl applyFamCall (Family.init T names)),
      k ∈ famKeys ((cs1 ++ cs2).foldl applyFamCall (Family.init T names)) := by
  refine ⟨(famInv_foldl cs1 (famInv_init names)).1, ?_⟩
  intro k hk
  rw [List.foldl_append]
  exact (famInv_foldl cs2 (famInv_foldl cs1 (famInv_init names)).1).2 k hk

/-- C1 counterexample: a `labels()` call whose set repeats the label name
`l1` with two values passes validation on a schema of two names `l1, l2`,
so the family gains a key that does NOT consist of exactly the schema's
label names: `l2` is missing from it. -/
theorem family_key_invariant_cex :
    (CounterFamily.labels [⟨"l1", "0"⟩, ⟨"l1", "1"⟩]
        (Family.init Counter ["l1", "l2"])).1.isOk = true
    ∧ ∃ k ∈ famKeys (CounterFamily.labels [⟨"l1", "0"⟩, ⟨"l1", "1"⟩]
        (Family.init Counter ["l1", "l2"])).2,
        "l2" ∈ (Family.init Counter ["l1", "l2"]).labels_names ∧
        ¬ "l2" ∈ k.map Label.name := by decide

/-- C3: a `labels()` call whose label set is already a cache key returns
the stored instance and leaves the family unchanged whatever construction
arguments are supplied (so two calls with identical label values return
the identical instance); a call whose (valid) label set is absent stores
exactly one new metric built from the supplied arguments under that key
— the cache gains exactly one entry, found under the key — and returns
it with a fresh identity. -/
theorem labels_memoization {T : Type} (f : Family T) (raw : List Label) (m₁ m₂ : T) :
    (∀ inst, (MetricFamily.labels raw m₁ f).1 = .ok inst →
        MetricFamily.labels raw m₂ (MetricFamily.labels raw m₁ f).2
          = (.ok inst, (MetricFamily.labels raw m₁ f).2))
    ∧ ((mkLabelSet raw).length = f.labels_names.length →
       ((mkLabelSet raw).all fun l => f.labels_names.contains l.name) = true →
       famFind (mkLabelSet raw) f.metrics = none →
         (MetricFamily.labels raw m₁ f).1 = .ok (f.next_id, m₁)
         ∧ famFind (mkLabelSet raw) (MetricFamily.labels raw m₁ f).2.metrics
             = some (f.next_id, m₁)
         ∧ (MetricFamily.labels raw m₁ f).2.metrics.length = f.metrics.length + 1) := by
  constructor
  · intro inst hok
    by_cases h1 : (mkLabelSet raw).length ≠ f.labels_names.length
    · rw [labels_error_count raw m₁ f h1] at hok
      exact absurd hok (by simp)
    · by_cases h2 : ((mkLabelSet raw).any fun l => !(f.labels_names.contains l.name)) = true
      · rw [labels_error_names raw m₁ f h1 h2] at hok
        exact absurd hok (by simp)
      · cases hf : famFind (mkLabelSet raw) f.metrics with
        | some mm =>
            rw [labels_found raw m₁ f h1 h2 hf] at hok ⊢
            simp only [Except.ok.injEq] at hok
            subst hok
            exact labels_found raw m₂ f h1 h2 hf
        | none =>
            rw [labels_absent raw m₁ f h1 h2 hf] at hok ⊢
            simp only [Except.ok.injEq] at hok
            subst hok
            exact labels_found raw m₂ _ h1 h2 (famFind_sInsert_self hf)
  · intro h1 h2 hf
    have h1' : ¬ (mkLabelSet raw).length ≠ f.labels_names.length := not_ne_iff.mpr h1
    have h2' : ¬ ((mkLabelSet raw).any fun l => !(f.labels_names.contains l.name)) = true := by
      intro hany
      rcases List.any_eq_true.mp hany with ⟨l, hl, hlc⟩
      have hcl := List.all_eq_true.mp h2 l hl
      simp only [Bool.not_eq_true'] at hlc
      rw [hlc] at hcl
      exact Bool.false_ne_true hcl
    rw [labels_absent raw m₁ f h1' h2' hf]
    exact ⟨rfl, famFind_sInsert_self hf, length_sInsert_of_famFind_none hf⟩

/-- Witness for C3: on a fresh one-name family, the first call with
`{l1="x"}` misses the cache and stores metric id 0; the stored entry is
found again and the cache grew by one. -/
theorem labels_memoization_witness :
    ((mkLabelSet [⟨"l1", "x"⟩]).length = (Family.init Counter ["l1"]).labels_names.length
     ∧ ((mkLabelSet [⟨"l1", "x"⟩]).all
         fun l => (Family.init Counter ["l1"]).labels_names.contains l.name) = true
     ∧ famFind (mkLabelSet [⟨"l1", "x"⟩]) (Family.init Counter ["l1"]).metrics = none)
    ∧ ((MetricFamily.labels [⟨"l1", "x"⟩] Counter.new (Family.init Counter ["l1"])).1
         = .ok ((Family.init Counter ["l1"]).next_id, Counter.new)
       ∧ famFind (mkLabelSet [⟨"l1", "x"⟩])
           (MetricFamily.labels [⟨"l1", "x"⟩] Counter.new
             (Family.init Counter ["l1"])).2.metrics
           = some ((Family.init Counter ["l1"]).next_id, Counter.new)
       ∧ (MetricFamily.labels [⟨"l1", "x"⟩] Counter.new
           (Family.init Counter ["l1"])).2.metrics.length
           = (Family.init Counter ["l1"]).metrics.length + 1) :=
  ⟨⟨by decide, by decide, by decide⟩,
   (labels_memoization (Family.init Counter ["l1"]) [⟨"l1", "x"⟩] Counter.new Counter.new).2
     (by decide) (by decide) (by decide)⟩

/-- Whether an `Except` result models a thrown exception. -/
def isErr {ε α : Type} : Except ε α → Bool
  | .error _ => true
  | .ok _ => false

/-- C4: a `labels()` call fails (throws `std::invalid_argument`) exactly
when the label set's size differs from the schema's size or some label
name of the set is not a schema name, and a failing call leaves the
family — in particular its cache map — unchanged, the validation running
before any lookup or insertion. -/
theorem labels_validation {T : Type} (f : Family T) (raw : List Label) (m : T) :
    (isErr (MetricFamily.labels raw m f).1 = true ↔
      ((mkLabelSet raw).length ≠ f.labels_names.length ∨
        ∃ l ∈ mkLabelSet raw, ¬ l.name ∈ f.labels_names))
    ∧ (isErr (MetricFamily.labels raw m f).1 = true →
        (MetricFamily.labels raw m f).2 = f) := by
  by_cases h1 : (mkLabelSet raw).length ≠ f.labels_names.length
  · rw [labels_error_count raw m f h1]
    exact ⟨iff_of_true rfl (Or.inl h1), fun _ => rfl⟩
  · by_cases h2 : ((mkLabelSet raw).any fun l => !(f.labels_names.contains l.name)) = true
    · rw [labels_error_names raw m f h1 h2]
      refine ⟨iff_of_true rfl (Or.inr ?_), fun _ => rfl⟩
      rcases List.any_eq_true.mp h2 with ⟨l, hl, hlc⟩
      refine ⟨l, hl, fun hmem => ?_⟩
      have hcl : f.labels_names.contains l.name = true := List.elem_iff.mpr hmem
      simp only [Bool.not_eq_true'] at hlc
      rw [hlc] at hcl
      exact Bool.false_ne_true hcl
    · have hrhs : ¬ ((mkLabelSet raw).length ≠ f.labels_names.length ∨
          ∃ l ∈ mkLabelSet raw, ¬ l.name ∈ f.labels_names) := by
        rintro (h | ⟨l, hl, hmem⟩)
        · exact h1 h
        · refine h2 (List.any_eq_true.mpr ⟨l, hl, ?_⟩)
          show (!(f.labels_names.contains l.name)) = true
          have hcf : f.labels_names.contains l.name = false := by
            by_contra hcc
            exact hmem (List.elem_iff.mp (by simpa using hcc))
          rw [hcf]
          rfl
      cases hf : famFind (mkLabelSet raw) f.metrics with
      | some mm =>
          rw [labels_found raw m f h1 h2 hf]
          exact ⟨iff_of_false (by simp [isErr]) hrhs, fun h => absurd h (by simp [isErr])⟩
      | none =>
          rw [labels_absent raw m f h1 h2 hf]
          exact ⟨iff_of_false (by simp [isErr]) hrhs, fun h => absurd h (by simp [isErr])⟩

/-- Witness for C4: the empty label set on a one-name schema fails, and
the family comes back unchanged. -/
theorem labels_validation_witness :
    isErr (MetricFamily.labels [] Counter.new (Family.init Counter ["l1"])).1 = true ∧
    (MetricFamily.labels [] Counter.new (Family.init Counter ["l1"])).2
      = Family.init Counter ["l1"] :=
  ⟨by decide,
   (labels_validation (Family.init Counter ["l1"]) [] Counter.new).2 (by decide)⟩

theorem filter_ne_of_regFind_none {α : Type} {name : String} :
    ∀ {l : List (String × α)}, regFind name l = none →
      l.filter (fun e => e.1 != name) = l
  | [] => by intro _; rfl
  | e :: rest => by
      intro h
      rw [regFind] at h
      by_cases he : e.1 = name
      · simp [he] at h
      · rw [if_neg he] at h
        rw [List.filter_cons, if_pos (by simpa using he)]
        rw [filter_ne_of_regFind_none h]

theorem regFind_none_of_forall {α : Type} {name : String} :
    ∀ {l : List (String × α)}, (∀ e ∈ l, e.1 ≠ name) → regFind name l = none
  | [] => by intro _; rfl
  | e :: rest => by
      intro h
      rw [regFind, if_neg (h e (List.mem_cons_self e rest))]
      exact regFind_none_of_forall (fun x hx => h x (List.mem_cons.mpr (Or.inr hx)))

/-- C7: `register_metric` answers `true` exactly when the name was free;
after it, lookup under the metric's name yields the already-stored entry
if there was one (no overwrite — the registry is unchanged) and the new
metric otherwise; `unregister_metric` answers `true` exactly when an
entry existed, removes it, and is a no-op on an absent name; lookup of a
name no entry carries returns the empty result (and, being total, never
throws). -/
theorem registry_ops_contract (r : Registry) (m : MetricEntry) (name : String) :
    ((r.register_metric m).1 = !(r.get_metric m.name).isSome)
    ∧ ((r.register_metric m).2.get_metric m.name = some ((r.get_metric m.name).getD m))
    ∧ ((r.get_metric m.name).isSome = true → (r.register_metric m).2 = r)
    ∧ ((r.unregister_metric name).1 = (r.get_metric name).isSome)
    ∧ ((r.unregister_metric name).2.get_metric name = none)
    ∧ (r.get_metric name = none → (r.unregister_metric name).2 = r)
    ∧ ((∀ e ∈ r.metrics, e.1 ≠ name) → r.get_metric name = none) := by
  refine ⟨?_, ?_, ?_, rfl, regFind_filter_ne name r.metrics, ?_, ?_⟩
  · rw [Registry.register_metric]
    cases h : (r.get_metric m.name).isSome
    · rw [if_neg (by rw [Registry.get_metric] at h; simp [h])]
      rfl
    · rw [if_pos (by rw [Registry.get_metric] at h; simp [h])]
      rfl
  · rw [Registry.register_metric]
    cases h : r.get_metric m.name with
    | some m0 =>
        rw [if_pos (by rw [Registry.get_metric] at h; simp [h])]
        simpa [Option.getD] using h
    | none =>
        rw [if_neg (by rw [Registry.get_metric] at h; simp [h])]
        show regFind m.name (sInsert strKeyLt (m.name, m) r.metrics) = some m
        exact regFind_sInsert_self h
  · intro h
    have h' : (regFind m.name r.metrics).isSome = true := h
    rw [Registry.register_metric, if_pos h']
  · intro h
    show Registry.mk (r.metrics.filter (fun e => e.1 != name)) = r
    rw [filter_ne_of_regFind_none h]
  · intro h
    exact regFind_none_of_forall h

/-- Witness for C7 on a one-entry and an empty registry. -/
theorem registry_ops_contract_witness :
    (((Registry.mk [("a", ⟨"a", "d", .Counter, .counterMetric Counter.new⟩)]).get_metric
        "a").isSome = true
      ∧ ((Registry.mk [("a", ⟨"a", "d", .Counter, .counterMetric Counter.new⟩)]).register_metric
          ⟨"a", "d", .Counter, .counterMetric Counter.new⟩).2
        = Registry.mk [("a", ⟨"a", "d", .Counter, .counterMetric Counter.new⟩)])
    ∧ ((Registry.mk []).get_metric "a" = none
      ∧ ((Registry.mk []).unregister_metric "a").2 = Registry.mk []
      ∧ (Registry.mk []).get_metric "b" = none) :=
  ⟨⟨by decide,
    (registry_ops_contract (Registry.mk [("a", ⟨"a", "d", .Counter, .counterMetric Counter.new⟩)])
      ⟨"a", "d", .Counter, .counterMetric Counter.new⟩ "a").2.2.1 (by decide)⟩,
   ⟨by decide,
    (registry_ops_contract (Registry.mk []) ⟨"a", "d", .Counter, .counterMetric Counter.new⟩
      "a").2.2.2.2.2.1 (by decide),
    (registry_ops_contract (Registry.mk []) ⟨"a", "d", .Counter, .counterMetric Counter.new⟩
      "b").2.2.2.2.2.2 (by decide)⟩⟩

/-- C2 evaluated on the code: a `HistogramFamily` constructed with a valid
name and a valid label name carries the kind tag `MetricType.Gauge` — the
source constructor passes `MetricType::Gauge` to its base
(oura_prometheus.hpp line 450) — so `get_type()` answers `Gauge` and a
serialized snapshot containing it reads `# TYPE my_hist gauge`, not
`... histogram`. -/
theorem histogram_family_type_eval :
    check_name_format "my_hist" = true
    ∧ check_label_name_format "l1" = true
    ∧ HistogramFamily.new "my_hist" "Latency" ["l1"] []
        = .ok ⟨"my_hist", "Latency", MetricType.Gauge,
            .histogramFamily [] (Family.init Histogram ["l1"])⟩
    ∧ (MetricEntry.get_type
         ⟨"my_hist", "Latency", MetricType.Gauge,
           .histogramFamily [] (Family.init Histogram ["l1"])⟩) = MetricType.Gauge
    ∧ TextSerializer.serialize
        (((Registry.mk []).register_metric
            ⟨"my_hist", "Latency", MetricType.Gauge,
              .histogramFamily [] (Family.init Histogram ["l1"])⟩).2.collect [])
      = "# HELP my_hist Latency\n# TYPE my_hist gauge\n" := by
  refine ⟨by decide, by decide, by rfl, rfl, ?_⟩
  decide

/-- C8: registering the gauge `my_gauge` ("Test gauge", value 42) and
serializing the collected snapshot yields exactly the three lines
`# HELP my_gauge Test gauge`, `# TYPE my_gauge gauge` and `my_gauge 42`,
with no label block on the sample line. -/
theorem gauge_roundtrip_eval :
    GaugeMetric.new "my_gauge" "Test gauge" 42
      = .ok ⟨"my_gauge", "Test gauge", MetricType.Gauge, .gaugeMetric (Gauge.new 42)⟩
    ∧ TextSerializer.serialize
        (((Registry.mk []).register_metric
            ⟨"my_gauge", "Test gauge", MetricType.Gauge, .gaugeMetric (Gauge.new 42)⟩).2.collect [])
      = "# HELP my_gauge Test gauge\n# TYPE my_gauge gauge\nmy_gauge 42\n" := by
  constructor
  · rfl
  · decide

/-- The control point a thread is at while executing
`atomic_double::operator+=(delta)`, i.e. `change(this->load() + value)`:
`start` — before the `load()` whose result fixes `target_value`;
`loaded target` — `target_value` computed, before `change`'s own
initialising load `double current = *this`;
`casLoop current target` — inside the retry loop
`for (double current = *this; !compare_exchange_weak(current, target_value);)`;
`finished` — the exchange succeeded. -/
inductive AddPhase
  | start
  | loaded (target : ℚ)
  | casLoop (current target : ℚ)
  | finished
deriving DecidableEq

/-- One thread executing `operator+=(delta)` on a shared `atomic_double`. -/
structure AddThread where
  delta : ℚ
  phase : AddPhase
deriving DecidableEq

/-- One atomic memory operation of the thread against the shared value.
A failed `compare_exchange_weak` reloads `current` but keeps the SAME
stale `target` — exactly as in the source loop, whose `target_value` is
computed once, outside the loop. -/
def stepThread (value : ℚ) (t : AddThread) : ℚ × AddThread :=
  match t.phase with
  | .start => (value, ⟨t.delta, .loaded (value + t.delta)⟩)
  | .loaded target => (value, ⟨t.delta, .casLoop value target⟩)
  | .casLoop current target =>
      if value = current then (target, ⟨t.delta, .finished⟩)
      else (value, ⟨t.delta, .casLoop value target⟩)
  | .finished => (value, t)

/-- The shared `atomic_double` together with the concurrent threads. -/
structure ConcState where
  value : ℚ
  threads : List AddThread
deriving DecidableEq

/-- The scheduler lets thread `i` perform its next atomic operation. -/
def stepAt (s : ConcState) (i : ℕ) : ConcState :=
  match s.threads[i]? with
  | none => s
  | some t =>
      let r := stepThread s.value t
      ⟨r.1, s.threads.set i r.2⟩

/-- Run a whole interleaving. -/
def runSched (s : ConcState) (sched : List ℕ) : ConcState :=
  sched.foldl stepAt s

/-- C9 evaluated on the code: two threads each run `+= 1` on a shared
accumulator starting at 0.  Under the interleaving in which both threads
pass their initial `load()` before either compare-exchange, both compute
the stale target `0 + 1`; the first CAS succeeds, the second fails once,
reloads `current = 1` and then succeeds storing the SAME stale target, so
both threads finish with the final value `1` — one update is lost,
although the sum of the applied deltas is `2`. -/
theorem atomic_double_lost_update_eval :
    (runSched ⟨0, [⟨1, .start⟩, ⟨1, .start⟩]⟩ [0, 1, 0, 0, 1, 1]).value = 1
    ∧ (∀ t ∈ (runSched ⟨0, [⟨1, .start⟩, ⟨1, .start⟩]⟩ [0, 1, 0, 0, 1, 1]).threads,
        t.phase = .finished)
    ∧ ((0 : ℚ) + (1 + 1) ≠ 1) := by
  refine ⟨?_, ?_, by norm_num⟩
  · show (runSched ⟨0, [⟨1, .start⟩, ⟨1, .start⟩]⟩ [0, 1, 0, 0, 1, 1]).value = 1
    simp only [runSched, List.foldl_cons, List.foldl_nil, stepAt, stepThread]
    norm_num
  · intro t ht
    simp only [runSched, List.foldl_cons, List.foldl_nil, stepAt, stepThread] at ht
    norm_num at ht
    rw [ht]

theorem strKeyLt_trans {α : Type} (p q r : String × α) (h1 : strKeyLt p q = true)
    (h2 : strKeyLt q r = true) : strKeyLt p r = true :=
  strLt_trans h1 h2

/-- All cache keys of a family are canonically sorted label lists. -/
def FamKeysSorted {T : Type} (f : Family T) : Prop :=
  ∀ k ∈ famKeys f, k.Pairwise (fun a b => Label.lt a b = true)

theorem mkLabelSet_pairwise (raw : List Label) :
    (mkLabelSet raw).Pairwise (fun a b => Label.lt a b = true) := by
  unfold mkLabelSet
  exact @pairwise_foldl_sInsert Label Label.lt (fun a b c h1 h2 => labelLt_trans h1 h2) raw [] List.Pairwise.nil

theorem labels_keys_sorted_step {T : Type} {f : Family T} (raw : List Label) (m : T)
    (hs : FamKeysSorted f) : FamKeysSorted (MetricFamily.labels raw m f).2 := by
  by_cases h1 : (mkLabelSet raw).length ≠ f.labels_names.length
  · rw [labels_error_count raw m f h1]; exact hs
  · by_cases h2 : ((mkLabelSet raw).any fun l => !(f.labels_names.contains l.name)) = true
    · rw [labels_error_names raw m f h1 h2]; exact hs
    · cases hf : famFind (mkLabelSet raw) f.metrics with
      | some mm => rw [labels_found raw m f h1 h2 hf]; exact hs
      | none =>
          rw [labels_absent raw m f h1 h2 hf]
          intro k hk
          rcases List.mem_map.mp hk with ⟨e, he, hke⟩
          rcases mem_of_mem_sInsert he with h' | h'
          · subst h'
            simp only at hke
            rw [← hke]
            exact mkLabelSet_pairwise raw
          · exact hs k (List.mem_map.mpr ⟨e, h', hke⟩)

theorem famKeysSorted_foldl {T : Type} (cs : List (FamCall T)) :
    ∀ {f : Family T}, FamKeysSorted f → FamKeysSorted (cs.foldl applyFamCall f) := by
  induction cs with
  | nil => intro f h; exact h
  | cons c cs ih => intro f h; exact ih (labels_keys_sorted_step c.raw c.metric h)

theorem famKeysSorted_init {T : Type} (names : List String) :
    FamKeysSorted (Family.init T names) := by
  intro k hk
  simp [Family.init, famKeys] at hk

theorem metric_serializer_extra_last (name : String) (value : ℚ) (labels : List Label)
    (extra : Label) (hx : ¬ extra.name = "") :
    metric_serializer name value labels extra
      = name ++ ("\x7b" ++ String.intercalate ","
          (labels.map (fun l => l.name ++ "=\"" ++ escape_double_quotes l.value ++ "\"")
            ++ [extra.name ++ "=\"" ++ escape_double_quotes extra.value ++ "\""]) ++ "\x7d")
        ++ " " ++ render_double value ++ "\n" := by
  simp only [metric_serializer, if_neg hx]
  have hc : (labels.isEmpty && decide (extra.name = "")) = false := by
    simp [hx]
  rw [hc]
  simp

/-- C10: serialization order is canonical and deterministic: a collected
snapshot is strictly sorted by metric name and `TextSerializer::serialize`
(a pure function of the snapshot, hence deterministic) emits one block per
metric in exactly that order; a family cache key — the label set of a
sample line — is always a canonically sorted label list, `mkLabelSet`
sorts ascending by `(name, value)`, and `metric_serializer` appends the
kind-specific extra label (e.g. the histogram's `le`) after all set
labels. -/
theorem serializer_canonical_order (r : Registry) (raw : List Label) (T : Type)
    (names : List String) (cs : List (FamCall T)) :
    (r.collect []).Pairwise (fun p q => strLt p.1 q.1 = true)
    ∧ TextSerializer.serialize (r.collect [])
        = String.join ((r.collect []).map (fun e => metricBlock e.2))
    ∧ (mkLabelSet raw).Pairwise (fun a b => Label.lt a b = true)
    ∧ (∀ k ∈ famKeys (cs.foldl applyFamCall (Family.init T names)),
        k.Pairwise (fun a b => Label.lt a b = true))
    ∧ (∀ (nm : String) (value : ℚ) (labels : List Label) (extra : Label),
        ¬ extra.name = "" →
        metric_serializer nm value labels extra
          = nm ++ ("\x7b" ++ String.intercalate ","
              (labels.map (fun l => l.name ++ "=\"" ++ escape_double_quotes l.value ++ "\"")
                ++ [extra.name ++ "=\"" ++ escape_double_quotes extra.value ++ "\""]) ++ "\x7d")
            ++ " " ++ render_double value ++ "\n") := by
  refine ⟨?_, rfl, mkLabelSet_pairwise raw,
    famKeysSorted_foldl cs (famKeysSorted_init names), metric_serializer_extra_last⟩
  have : ∀ p q : String × MetricEntry, strKeyLt p q = true → strLt p.1 q.1 = true :=
    fun p q h => h
  refine List.Pairwise.imp (fun h => this _ _ h) ?_
  exact @pairwise_foldl_sInsert (String × MetricEntry) strKeyLt strKeyLt_trans r.metrics [] List.Pairwise.nil

/-- Witness for C10's sample-line clause at a concrete histogram-style
extra label. -/
theorem serializer_canonical_order_witness :
    ¬ (Label.mk "le" "1").name = "" ∧
    metric_serializer "m" 0 [⟨"a", "v"⟩] ⟨"le", "1"⟩
      = "m" ++ ("\x7b" ++ String.intercalate ","
          ([Label.mk "a" "v"].map
            (fun l => l.name ++ "=\"" ++ escape_double_quotes l.value ++ "\"")
            ++ [(Label.mk "le" "1").name ++ "=\"" ++
              escape_double_quotes (Label.mk "le" "1").value ++ "\""]) ++ "\x7d")
        ++ " " ++ render_double 0 ++ "\n" :=
  ⟨by decide,
   (serializer_canonical_order ⟨[]⟩ [] Unit [] []).2.2.2.2 "m" 0 [⟨"a", "v"⟩] ⟨"le", "1"⟩
     (by decide)⟩
